import Mathlib

/-!
Shallow embedding of the LinkSnap content-script core (the link-mention
lifecycle engine): mention scanning, highlight-store reconciliation, the
fetch/retry/cache state machine, the submission guard, and the context
injector.  Every definition is translated from the source content script;
machine-level DOM details (the overlay renderer, event plumbing) are
abstracted to the data they compute.
-/

/-- The JS regex whitespace class membership test used by the source
pattern `@link\s+(https?:\/\/[^\s]+)` (the characters of the class that
are representable here: the ASCII whitespace characters and NBSP). -/
def jsWhitespace (c : Char) : Bool :=
  c = ' ' || c = '\t' || c = '\n' || c = '\r' || c = '\x0b' || c = '\x0c' || c = ' '

/-- The JS regex word-character class membership test, the complement of
the class used by `generateId`'s pattern: a word character is one of
A-Z, a-z, 0-9 or the underscore. -/
def isWordChar (c : Char) : Bool :=
  ('a' ≤ c && c ≤ 'z') || ('A' ≤ c && c ≤ 'Z') || ('0' ≤ c && c ≤ '9') || c = '_'

/-- Source `generateId(text)`: `text.replace(/\W/g, "_")` — every
non-word character of the text is replaced by the underscore. -/
def generateId (text : String) : String :=
  String.mk (text.toList.map (fun c => if isWordChar c then c else '_'))

/-- One scanner match of the source regex
`@link\s+(https?:\/\/[^\s]+)`: the whole matched substring (`match[0]`)
and the captured URL token (`match[1]`). -/
structure Mention where
  matchedText : String
  url : String
deriving DecidableEq, Repr

/-- Match the URL part `https?:\/\/[^\s]+` of the source regex at the
head of the character list: the literal scheme (greedy optional `s`,
which is deterministic here because a successful parse needs `://` right
after the scheme letters), then a maximal nonempty run of
non-whitespace characters. -/
def matchUrlAt (cs : List Char) : Option (List Char) :=
  if "https://".toList.isPrefixOf cs then
    let tok := (cs.drop 8).takeWhile (fun c => !jsWhitespace c)
    if tok.isEmpty then none else some ("https://".toList ++ tok)
  else if "http://".toList.isPrefixOf cs then
    let tok := (cs.drop 7).takeWhile (fun c => !jsWhitespace c)
    if tok.isEmpty then none else some ("http://".toList ++ tok)
  else none

/-- Match the whole source regex `@link\s+(https?:\/\/[^\s]+)` at the
head of the character list: the literal `@link`, a maximal nonempty
whitespace run (greediness is deterministic: the URL must start with a
non-whitespace character), then the URL token.  Returns
`(match[0], match[1])`. -/
def matchMentionAt (cs : List Char) : Option (List Char × List Char) :=
  if "@link".toList.isPrefixOf cs then
    let rest := cs.drop 5
    let ws := rest.takeWhile jsWhitespace
    if ws.isEmpty then none
    else
      match matchUrlAt (rest.drop ws.length) with
      | some u => some ("@link".toList ++ ws ++ u, u)
      | none => none
  else none

/-- The `text.matchAll(URL_REGEX)` loop: left-to-right, non-overlapping;
on a miss the scanner advances one character, on a hit it continues
right after the match.  (When a match of length `len ≥ 1` is found at
`c :: cs`, the continuation `cs.drop (len - 1)` is exactly
`(c :: cs).drop len`.)  The `fuel` argument only drives structural
recursion; every step consumes at least one character, so starting the
fuel at the text length never truncates the scan. -/
def scanAux : Nat → List Char → List Mention
  | 0, _ => []
  | _, [] => []
  | fuel + 1, c :: cs =>
    match matchMentionAt (c :: cs) with
    | some (m, u) =>
        { matchedText := String.mk m, url := String.mk u } :: scanAux fuel (cs.drop (m.length - 1))
    | none => scanAux fuel cs

/-- All matches of `URL_REGEX` in the surface text, in order. -/
def scanMentions (text : String) : List Mention :=
  scanAux text.toList.length text.toList

/-- JS `String.prototype.indexOf` on character lists: the first index at
which the pattern occurs, or `none` (JS `-1`). -/
def indexOfSub : List Char → List Char → Option Nat
  | [], pat => if pat.isPrefixOf ([] : List Char) then some 0 else none
  | c :: cs, pat =>
    if pat.isPrefixOf (c :: cs) then some 0
    else (indexOfSub cs pat).map (fun n => n + 1)

/-- JS `String.prototype.includes`. -/
def stringIncludes (s sub : String) : Bool :=
  (indexOfSub s.toList sub.toList).isSome

/-- Source `findRangeForMatch(element, searchText)`: returns `null`
exactly when `text.indexOf(searchText) === -1`; otherwise it builds a
range at the first occurrence.  The range is modelled by that first
index. -/
def findRangeForMatch (text searchText : String) : Option Nat :=
  indexOfSub text.toList searchText.toList

/-- The four values of `LinkState.status`. -/
inductive Status
  | pending
  | fetching
  | done
  | error
deriving DecidableEq, Repr

/-- The metadata object carried by a fetch response
(`response.data.metadata`); the fields the core reads are `title` and
`description` (context injection) and `error` (failure message). -/
structure Metadata where
  title : Option String
  description : Option String
  error : Option String
deriving DecidableEq, Repr

/-- Source `LinkState`: `{ url, status, context?, metadata?,
screenshot?, error? }` (the source also assigns `metadata` and `error`
beyond the declared interface). -/
structure LinkState where
  url : String
  status : Status
  context : Option String
  metadata : Option Metadata
  screenshot : Option String
  error : Option String
deriving DecidableEq, Repr

/-- Source `Highlight`: `{ id, text, range, state }`; the live DOM
`Range` is modelled by the first-occurrence index `findRangeForMatch`
computed at creation. -/
structure Highlight where
  id : String
  text : String
  range : Nat
  state : LinkState
deriving DecidableEq, Repr

/-- The mutable store of the processor: the `highlights` map (a JS
`Map`, insertion-ordered, unique keys) and the `pendingLinks` set (a JS
`Set`, insertion-ordered, unique elements). -/
structure StoreState where
  highlights : List (String × Highlight)
  pendingLinks : List String
deriving DecidableEq, Repr

/-- The empty store (`new Map()` / `new Set()`). -/
def emptyStore : StoreState :=
  { highlights := [], pendingLinks := [] }

/-- JS `Map.get` on the insertion-ordered association list. -/
def hlLookup : List (String × Highlight) → String → Option Highlight
  | [], _ => none
  | p :: rest, k => if p.1 = k then some p.2 else hlLookup rest k

/-- JS `Map.set` on an existing key: replace the value in place. -/
def hlUpdate : List (String × Highlight) → String → Highlight → List (String × Highlight)
  | [], _, _ => []
  | p :: rest, k, h => if p.1 = k then (k, h) :: rest else p :: hlUpdate rest k h

/-- JS `Set.add`: append the element unless it is already present. -/
def addPending (p : List String) (u : String) : List String :=
  if p.contains u then p else p ++ [u]

/-- The highlight record created for a fresh match, as built by the
creation loop of `updateHighlights`. -/
def freshHighlight (m : Mention) (r : Nat) : Highlight :=
  { id := generateId m.matchedText, text := m.matchedText, range := r,
    state := { url := m.url, status := Status.pending, context := none,
               metadata := none, screenshot := none, error := none } }

/-- One iteration of the creation loop of `updateHighlights`: compute the
id of the match; if the highlights map does not yet have it, resolve the
range by first-occurrence search and (when a range is found) insert a
fresh `pending` highlight and add the URL to the pending set. -/
def addMatch (text : String) (s : StoreState) (m : Mention) : StoreState :=
  let id := generateId m.matchedText
  match hlLookup s.highlights id with
  | some _ => s
  | none =>
    match findRangeForMatch text m.matchedText with
    | some r =>
        { highlights := s.highlights ++ [(id, freshHighlight m r)],
          pendingLinks := addPending s.pendingLinks m.url }
    | none => s

/-- Source `updateHighlights`: scan the surface text, create a highlight
for every match whose id is new (adding its URL to the pending set),
then delete every highlight whose id is not among the current match ids,
deleting its URL from the pending set unconditionally. -/
def updateHighlights (text : String) (s : StoreState) : StoreState :=
  let mentions := scanMentions text
  let currentIds := mentions.map (fun m => generateId m.matchedText)
  let s1 := mentions.foldl (addMatch text) s
  let dead := s1.highlights.filter (fun p => !(currentIds.contains p.1))
  { highlights := s1.highlights.filter (fun p => currentIds.contains p.1),
    pendingLinks := s1.pendingLinks.filter (fun u => !(dead.any (fun p => p.2.state.url = u))) }

/-- The payload of a successful fetch response
(`response.data`): markdown content, optional metadata, and the
optional `originalData.screenshot` field. -/
structure FetchData where
  markdown : String
  metadata : Option Metadata
  screenshot : Option String
deriving DecidableEq, Repr

/-- The response object of the content-fetching collaborator:
`{ success, data?, error? }` (the top-level `error` field is part of
the collaborator's shape; `processLink` never reads it). -/
structure FetchResponse where
  success : Bool
  data : Option FetchData
  errorField : Option String
deriving DecidableEq, Repr

/-- The outcome of one `await this.fetchLinkContext(url)`: either the
promise resolves with a response object, or a fault is thrown with a
message. -/
inductive FetchOutcome
  | resp (r : FetchResponse)
  | thrown (msg : String)
deriving DecidableEq, Repr

/-- The message of the error thrown on a non-success (or data-less)
response: `response.data?.metadata?.error || "Unknown error"` — the
optional-chained metadata error message when present and truthy
(nonempty), otherwise the literal `"Unknown error"`. -/
def failMessage (r : FetchResponse) : String :=
  match r.data with
  | some d =>
    match d.metadata with
    | some m =>
      match m.error with
      | some e => if e = "" then "Unknown error" else e
      | none => "Unknown error"
    | none => "Unknown error"
  | none => "Unknown error"

/-- Classification of one attempt inside `processLink`'s try block:
`response.success && response.data` selects the success path with the
data payload; anything else — including a thrown fault — is a failure
carrying the thrown message (`error.message`). -/
inductive AttemptResult
  | success (d : FetchData)
  | failure (msg : String)
deriving DecidableEq, Repr

/-- Evaluate the try-block branch condition of one attempt. -/
def classifyOutcome : FetchOutcome → AttemptResult
  | FetchOutcome.thrown msg => AttemptResult.failure msg
  | FetchOutcome.resp r =>
    match r.data with
    | some d => if r.success then AttemptResult.success d else AttemptResult.failure (failMessage r)
    | none => AttemptResult.failure (failMessage r)

/-- The `done` state built on a successful attempt: markdown into
`context`, metadata copied, and the screenshot copied only when the
`originalData?.screenshot` field is truthy (present and nonempty). -/
def doneStateOf (url : String) (d : FetchData) : LinkState :=
  { url := url, status := Status.done, context := some d.markdown, metadata := d.metadata,
    screenshot :=
      match d.screenshot with
      | some x => if x = "" then none else some x
      | none => none,
    error := none }

/-- The terminal `error` state built after the final failed attempt. -/
def errorStateOf (url msg : String) : LinkState :=
  { url := url, status := Status.error, context := none, metadata := none,
    screenshot := none, error := some msg }

/-- The durable cache blob: `Record<url, LinkState>`. -/
abbrev Cache := List (String × LinkState)

/-- Object property lookup `cache[url]` (the `if (cache[url])` guard is
object truthiness, i.e. presence). -/
def cacheLookup : Cache → String → Option LinkState
  | [], _ => none
  | p :: rest, k => if p.1 = k then some p.2 else cacheLookup rest k

/-- Object property assignment `cache[url] = state`. -/
def cacheSet : Cache → String → LinkState → Cache
  | [], k, v => [(k, v)]
  | p :: rest, k, v => if p.1 = k then (k, v) :: rest else p :: cacheSet rest k v

/-- The observable actions of the fetch orchestrator, in program
order: a call to the content-fetching collaborator, a backoff delay, a
durable-cache entry write (`cache[url] = st` followed by
`contextCache.setValue`), and a highlight state write. -/
inductive Effect
  | fetchCall (url : String)
  | waited (ms : Nat)
  | cacheWrite (url : String) (st : LinkState)
  | highlightUpdate (id : String) (st : LinkState)
deriving DecidableEq, Repr

/-- Source `updateHighlightState(id, state)`: if the highlights map has
the id, replace that highlight's state (and re-render). -/
def updateHighlightState (id : String) (st : LinkState) (s : StoreState) : StoreState :=
  match hlLookup s.highlights id with
  | some h => { s with highlights := hlUpdate s.highlights id { h with state := st } }
  | none => s

/-- The retry loop of `processLink`, iterating over the attempt numbers
`[0, 1, 2]`; `oracle` gives the outcome of each awaited fetch.  On
success: write the `done` state to the highlight and to the cache and
stop.  On failure: if `attempt === 2`, write the terminal `error` state
to the highlight and the cache (the loop then exits); otherwise wait
`1000 * (attempt + 1)` and continue. -/
def processLinkAttempts (oracle : Nat → FetchOutcome) (id url : String) :
    List Nat → StoreState → Cache → StoreState × Cache × List Effect
  | [], s, cache => (s, cache, [])
  | attempt :: rest, s, cache =>
    match classifyOutcome (oracle attempt) with
    | AttemptResult.success d =>
      let newState := doneStateOf url d
      (updateHighlightState id newState s, cacheSet cache url newState,
       [Effect.fetchCall url, Effect.highlightUpdate id newState, Effect.cacheWrite url newState])
    | AttemptResult.failure msg =>
      if attempt = 2 then
        let errSt := errorStateOf url msg
        let next := processLinkAttempts oracle id url rest
          (updateHighlightState id errSt s) (cacheSet cache url errSt)
        (next.1, next.2.1,
         Effect.fetchCall url :: Effect.highlightUpdate id errSt ::
           Effect.cacheWrite url errSt :: next.2.2)
      else
        let next := processLinkAttempts oracle id url rest s cache
        (next.1, next.2.1,
         Effect.fetchCall url :: Effect.waited (1000 * (attempt + 1)) :: next.2.2)

/-- Source `processLink(id, url)`: durable-cache lookup first — on a hit
copy the cached state onto the highlight and return (no fetch, no
retry); otherwise run the three-attempt loop. -/
def processLink (oracle : Nat → FetchOutcome) (id url : String) (s : StoreState) (cache : Cache) :
    StoreState × Cache × List Effect :=
  match cacheLookup cache url with
  | some st => (updateHighlightState id st s, cache, [Effect.highlightUpdate id st])
  | none => processLinkAttempts oracle id url [0, 1, 2] s cache

/-- The per-URL body of `processPendingLinks`'s dispatch loop: rebuild
the lookup id as `generateId("@link " + url)`; if that highlight exists
and is `pending`, set it to `fetching` and run `processLink`; otherwise
do nothing for this URL. -/
def processPendingStep (oracle : String → Nat → FetchOutcome)
    (acc : StoreState × Cache × List Effect) (url : String) :
    StoreState × Cache × List Effect :=
  let id := generateId ("@link " ++ url)
  match hlLookup acc.1.highlights id with
  | some h =>
    if h.state.status = Status.pending then
      let s1 := updateHighlightState id { h.state with status := Status.fetching } acc.1
      let stepped := processLink (oracle url) id url s1 acc.2.1
      (stepped.1, stepped.2.1, acc.2.2 ++ stepped.2.2)
    else acc
  | none => acc

/-- Source `processPendingLinks`: for each URL of the pending set (in
insertion order; the single-threaded interleaving is modelled
sequentially), run `processPendingStep`; finally clear the pending set
unconditionally. -/
def processPendingLinks (oracle : String → Nat → FetchOutcome) (s : StoreState) (cache : Cache) :
    StoreState × Cache × List Effect :=
  let result := s.pendingLinks.foldl (processPendingStep oracle) (s, cache, ([] : List Effect))
  ({ result.1 with pendingLinks := [] }, result.2.1, result.2.2)

/-- The block text built for one highlight inside `injectContext`, given
its (truthy) context string: `"\n\nContext for <url>:\n<context>"`,
prefixed by `"\n\n# <title>\n\n"` exactly when the state's metadata is
present with a truthy (nonempty) title different from the description
(`title && title !== description`). -/
def contextTextFor (st : LinkState) (c : String) : String :=
  let base := "\n\nContext for " ++ st.url ++ ":\n" ++ c
  match st.metadata with
  | some m =>
    match m.title with
    | some t =>
      if t ≠ "" ∧ m.description ≠ some t then "\n\n# " ++ t ++ "\n\n" ++ base else base
    | none => base
  | none => base

/-- Source `injectContext`: with the surface content captured once, for
each live highlight (in map order) whose status is `done`, whose
`context` is truthy (present and nonempty), and whose reconstructed
mention text `"@link " + url` still occurs in the content, append the
block `contextTextFor`; everything else appends nothing.  The result is
the ordered list of appended blocks (`injectedAny` is its
nonemptiness). -/
def injectContext (content : String) (highlights : List (String × Highlight)) : List String :=
  highlights.filterMap (fun p =>
    let st := p.2.state
    match st.context with
    | some c =>
      if st.status = Status.done ∧ c ≠ "" ∧ stringIncludes content ("@link " ++ st.url) then
        some (contextTextFor st c)
      else none
    | none => none)

/-- The flags of the submission guard together with the loading
indicator's visibility. -/
structure GuardState where
  isProcessing : Bool
  shouldBypassInterception : Bool
  loadingVisible : Bool
deriving DecidableEq, Repr

/-- One awaited step of the `Processing` sequence either completes or
throws a fault with a message. -/
inductive StepResult
  | completed
  | faulted (msg : String)
deriving DecidableEq, Repr

/-- The outcomes of the four awaited operations of the `Processing`
sequence body, in order: `processPendingLinks`, `injectContext`,
`triggerNativeSubmission`, and the fixed settle `delay(1000)`. -/
structure SubmitOracle where
  processResult : StepResult
  injectResult : StepResult
  dispatchResult : StepResult
  delayResult : StepResult
deriving DecidableEq, Repr

/-- The observable actions of `handleSubmitAttempt`. -/
inductive SubmitEffect
  | showLoading
  | processPending
  | inject
  | dispatchNative
  | settleDelay (ms : Nat)
  | errorShown (msg : String)
  | hideLoading
deriving DecidableEq, Repr

/-- The try block of `handleSubmitAttempt`: show the loading indicator,
run the pending links, inject context, set the bypass flag, re-fire the
native gesture, and wait the settle delay; stops at the first faulting
step, returning its message. -/
def runSubmitBody (o : SubmitOracle) (g : GuardState) :
    GuardState × List SubmitEffect × Option String :=
  let g1 := { g with loadingVisible := true }
  match o.processResult with
  | StepResult.faulted m => (g1, [SubmitEffect.showLoading], some m)
  | StepResult.completed =>
    match o.injectResult with
    | StepResult.faulted m =>
        (g1, [SubmitEffect.showLoading, SubmitEffect.processPending], some m)
    | StepResult.completed =>
      let g2 := { g1 with shouldBypassInterception := true }
      match o.dispatchResult with
      | StepResult.faulted m =>
          (g2, [SubmitEffect.showLoading, SubmitEffect.processPending, SubmitEffect.inject],
           some m)
      | StepResult.completed =>
        match o.delayResult with
        | StepResult.faulted m =>
            (g2, [SubmitEffect.showLoading, SubmitEffect.processPending, SubmitEffect.inject,
                  SubmitEffect.dispatchNative], some m)
        | StepResult.completed =>
            (g2, [SubmitEffect.showLoading, SubmitEffect.processPending, SubmitEffect.inject,
                  SubmitEffect.dispatchNative, SubmitEffect.settleDelay 1000], none)

/-- Source `handleSubmitAttempt`: if `isProcessing` is set, return at
once (the gesture is swallowed, nothing runs); otherwise set
`isProcessing`, run the try block, on a fault show the error surface,
and in all cases run the finally block: hide the loading indicator and
clear `isProcessing` and `shouldBypassInterception`. -/
def handleSubmitAttempt (o : SubmitOracle) (g : GuardState) :
    GuardState × List SubmitEffect :=
  if g.isProcessing then (g, [])
  else
    let body := runSubmitBody o { g with isProcessing := true }
    let withCatch :=
      match body.2.2 with
      | some msg => (body.1, body.2.1 ++ [SubmitEffect.errorShown msg])
      | none => (body.1, body.2.1)
    ({ withCatch.1 with
        loadingVisible := false
        isProcessing := false
        shouldBypassInterception := false },
     withCatch.2 ++ [SubmitEffect.hideLoading])

/-- Whether one fetch attempt counts as a failure for the retry loop:
a thrown fault, an explicit non-success response, or a success response
without data. -/
def attemptFails (o : FetchOutcome) : Bool :=
  match classifyOutcome o with
  | AttemptResult.failure _ => true
  | AttemptResult.success _ => false

/-- The message a failing attempt contributes to the terminal `error`
state: the thrown fault's message, or — for a resolved response taken
as a failure — `response.data?.metadata?.error || "Unknown error"`. -/
def outcomeFailureMessage : FetchOutcome → String
  | FetchOutcome.thrown msg => msg
  | FetchOutcome.resp r => failMessage r

/-- Whether a state's metadata has a (nonempty) title distinct from its
description — the header condition of the context-injection claim. -/
def metadataHasDistinctTitle (st : LinkState) : Bool :=
  match st.metadata with
  | some m =>
    match m.title with
    | some t => decide (t ≠ "" ∧ m.description ≠ some t)
    | none => false
  | none => false

/-- The metadata title of a state, defaulting to the empty string. -/
def stateTitle (st : LinkState) : String :=
  match st.metadata with
  | some m => m.title.getD ""
  | none => ""

/-- Definition following the claim's words, for comparison with the
source `injectContext`: for each live highlight whose status is `done`
with fetched content and whose mention text `@link <url>` is still
literally present in the surface text, a block consisting of the line
`Context for <url>:` followed by the fetched content, preceded by a
`# <title>` header exactly when the state's metadata has a title
distinct from its description; highlights not in `done` status or whose
mention text is absent contribute nothing. -/
def specInjectBlocks (content : String) (highlights : List (String × Highlight)) : List String :=
  highlights.filterMap (fun p =>
    let st := p.2.state
    match st.context with
    | some c =>
      if st.status = Status.done ∧ c ≠ "" ∧ stringIncludes content ("@link " ++ st.url) then
        some ((if metadataHasDistinctTitle st then "\n\n# " ++ stateTitle st ++ "\n\n" else "") ++
              ("\n\nContext for " ++ st.url ++ ":\n" ++ c))
      else none
    | none => none)


/-! ### Structural lemmas about the scanner -/

theorem drop_length_takeWhile (p : Char → Bool) (l : List Char) :
    l.drop (l.takeWhile p).length = l.dropWhile p := by
  induction l with
  | nil => rfl
  | cons c cs ih => cases h : p c <;> simp [List.takeWhile_cons, List.dropWhile_cons, h, ih]

theorem prefix_append_prefix {pre l₁ l₂ : List Char} (h : l₁ <+: l₂) :
    pre ++ l₁ <+: pre ++ l₂ := by
  obtain ⟨t, rfl⟩ := h
  exact ⟨t, by simp⟩

theorem matchUrlAt_prefix {cs u : List Char} (h : matchUrlAt cs = some u) : u <+: cs := by
  simp only [matchUrlAt] at h
  by_cases h1 : "https://".toList.isPrefixOf cs
  · rw [if_pos h1] at h
    obtain ⟨t, rfl⟩ := List.isPrefixOf_iff_prefix.mp h1
    rw [show (8 : Nat) = ("https://".toList).length from by decide, List.drop_left] at h
    by_cases h2 : (t.takeWhile (fun c => !jsWhitespace c)).isEmpty
    · rw [if_pos h2] at h
      exact absurd h (by simp)
    · rw [if_neg h2] at h
      obtain rfl := (Option.some.inj h).symm
      exact prefix_append_prefix (List.takeWhile_prefix _)
  · rw [if_neg h1] at h
    by_cases h3 : "http://".toList.isPrefixOf cs
    · rw [if_pos h3] at h
      obtain ⟨t, rfl⟩ := List.isPrefixOf_iff_prefix.mp h3
      rw [show (7 : Nat) = ("http://".toList).length from by decide, List.drop_left] at h
      by_cases h4 : (t.takeWhile (fun c => !jsWhitespace c)).isEmpty
      · rw [if_pos h4] at h
        exact absurd h (by simp)
      · rw [if_neg h4] at h
        obtain rfl := (Option.some.inj h).symm
        exact prefix_append_prefix (List.takeWhile_prefix _)
    · rw [if_neg h3] at h
      exact absurd h (by simp)

theorem matchMentionAt_some {cs m u : List Char} (h : matchMentionAt cs = some (m, u)) :
    m <+: cs ∧ 0 < m.length := by
  simp only [matchMentionAt] at h
  by_cases h1 : "@link".toList.isPrefixOf cs
  · rw [if_pos h1] at h
    obtain ⟨t, rfl⟩ := List.isPrefixOf_iff_prefix.mp h1
    rw [show (5 : Nat) = ("@link".toList).length from by decide, List.drop_left] at h
    by_cases h2 : (t.takeWhile jsWhitespace).isEmpty
    · rw [if_pos h2] at h
      exact absurd h (by simp)
    · rw [if_neg h2] at h
      cases hu : matchUrlAt (t.drop (t.takeWhile jsWhitespace).length) with
      | none =>
        rw [hu] at h
        exact absurd h (by simp)
      | some u' =>
        rw [hu] at h
        injection h with h'
        injection h' with hm hu2
        subst hm
        subst hu2
        constructor
        · rw [drop_length_takeWhile] at hu
          obtain ⟨r, hr⟩ := matchUrlAt_prefix hu
          refine ⟨r, ?_⟩
          simp only [List.append_assoc, hr]
          rw [List.takeWhile_append_dropWhile]
        · have h5 : ("@link".toList).length = 5 := by decide
          simp only [List.length_append]
          omega
  · rw [if_neg h1] at h
    exact absurd h (by simp)

theorem scanAux_matchedText_occurs (fuel : Nat) :
    ∀ (cs : List Char), ∀ men ∈ scanAux fuel cs, men.matchedText.toList <:+: cs := by
  induction fuel with
  | zero =>
    intro cs men h
    simp [scanAux] at h
  | succ fuel ih =>
    intro cs men h
    cases cs with
    | nil => simp [scanAux] at h
    | cons c cs' =>
      cases hm : matchMentionAt (c :: cs') with
      | some mu =>
        obtain ⟨m, u⟩ := mu
        simp only [scanAux, hm, List.mem_cons] at h
        rcases h with h | h
        · subst h
          exact (matchMentionAt_some hm).1.isInfix
        · have := ih (cs'.drop (m.length - 1)) men h
          exact this.trans ((List.drop_suffix _ _).isInfix.trans
            (List.suffix_cons c cs').isInfix)
      | none =>
        simp only [scanAux, hm] at h
        exact List.infix_cons (ih cs' men h)

theorem scanMentions_matchedText_occurs {text : String} {men : Mention}
    (h : men ∈ scanMentions text) : men.matchedText.toList <:+: text.toList :=
  scanAux_matchedText_occurs _ _ men h

theorem indexOfSub_isSome_of_occurs {pat cs : List Char} (h : pat <:+: cs) :
    (indexOfSub cs pat).isSome = true := by
  induction cs with
  | nil =>
    obtain rfl := List.infix_nil.mp h
    simp [indexOfSub, List.isPrefixOf]
  | cons c cs ih =>
    rcases List.infix_cons_iff.mp h with hp | hi
    · simp [indexOfSub, List.isPrefixOf_iff_prefix.mpr hp]
    · rw [indexOfSub]
      split_ifs
      · simp
      · simpa using ih hi

theorem findRangeForMatch_isSome_of_mem {text : String} {men : Mention}
    (h : men ∈ scanMentions text) : (findRangeForMatch text men.matchedText).isSome = true :=
  indexOfSub_isSome_of_occurs (scanMentions_matchedText_occurs h)

/-! ### Lemmas about the store's maps and sets -/

theorem hlLookup_eq_none_iff {l : List (String × Highlight)} {k : String} :
    hlLookup l k = none ↔ k ∉ l.map Prod.fst := by
  induction l with
  | nil => simp [hlLookup]
  | cons p rest ih =>
    rw [hlLookup, List.map_cons]
    by_cases hp : p.1 = k
    · simp [hp]
    · rw [if_neg hp, ih]
      constructor
      · intro h hmem
        rcases List.mem_cons.mp hmem with h1 | h1
        · exact hp h1.symm
        · exact h h1
      · intro h h1
        exact h (List.mem_cons_of_mem _ h1)

theorem hlLookup_append_of_none {l₁ l₂ : List (String × Highlight)} {k : String}
    (h : hlLookup l₁ k = none) : hlLookup (l₁ ++ l₂) k = hlLookup l₂ k := by
  induction l₁ with
  | nil => rfl
  | cons p rest ih =>
    rw [hlLookup] at h
    rw [List.cons_append, hlLookup]
    by_cases hp : p.1 = k
    · rw [if_pos hp] at h
      exact absurd h (by simp)
    · rw [if_neg hp] at h ⊢
      exact ih h

theorem hlLookup_singleton_self {k : String} {h : Highlight} :
    hlLookup [(k, h)] k = some h := by
  simp [hlLookup]

theorem hlUpdate_keys (l : List (String × Highlight)) (k : String) (h : Highlight) :
    (hlUpdate l k h).map Prod.fst = l.map Prod.fst := by
  induction l with
  | nil => rfl
  | cons p rest ih =>
    rw [hlUpdate]
    by_cases hp : p.1 = k
    · rw [if_pos hp]
      simp [hp]
    · rw [if_neg hp]
      simp [ih]

theorem hlLookup_hlUpdate_self {l : List (String × Highlight)} {k : String} {h0 h : Highlight}
    (hl : hlLookup l k = some h0) : hlLookup (hlUpdate l k h) k = some h := by
  induction l with
  | nil => simp [hlLookup] at hl
  | cons p rest ih =>
    rw [hlLookup] at hl
    rw [hlUpdate]
    by_cases hp : p.1 = k
    · rw [if_pos hp, hlLookup, if_pos rfl]
    · rw [if_neg hp] at hl
      rw [if_neg hp, hlLookup, if_neg hp]
      exact ih hl

theorem mem_addPending {p : List String} {u v : String} :
    v ∈ addPending p u ↔ v ∈ p ∨ v = u := by
  rw [addPending]
  by_cases hc : p.contains u
  · rw [if_pos hc]
    have hu : u ∈ p := List.elem_iff.mp hc
    constructor
    · exact fun h => Or.inl h
    · rintro (h | rfl)
      · exact h
      · exact hu
  · rw [if_neg hc]
    simp

theorem updateHighlightState_pendingLinks (id : String) (st : LinkState) (s : StoreState) :
    (updateHighlightState id st s).pendingLinks = s.pendingLinks := by
  rw [updateHighlightState]
  cases hlLookup s.highlights id <;> rfl

theorem updateHighlightState_keys (id : String) (st : LinkState) (s : StoreState) :
    (updateHighlightState id st s).highlights.map Prod.fst = s.highlights.map Prod.fst := by
  rw [updateHighlightState]
  cases hlLookup s.highlights id with
  | none => rfl
  | some h => exact hlUpdate_keys _ _ _

theorem hlLookup_updateHighlightState_self {id : String} {st : LinkState} {s : StoreState}
    {h : Highlight} (hl : hlLookup s.highlights id = some h) :
    hlLookup (updateHighlightState id st s).highlights id = some { h with state := st } := by
  rw [updateHighlightState, hl]
  exact hlLookup_hlUpdate_self hl

theorem cacheLookup_cacheSet_self (c : Cache) (k : String) (v : LinkState) :
    cacheLookup (cacheSet c k v) k = some v := by
  induction c with
  | nil => simp [cacheSet, cacheLookup]
  | cons p rest ih =>
    rw [cacheSet]
    by_cases hp : p.1 = k
    · rw [if_pos hp, cacheLookup, if_pos rfl]
    · rw [if_neg hp, cacheLookup, if_neg hp]
      exact ih

/-! ### The creation pass of reconciliation -/

theorem foldl_addMatch_fresh (text : String) :
    ∀ (ms : List Mention) (s : StoreState),
      (ms.map (fun m => generateId m.matchedText)).Nodup →
      (∀ m ∈ ms, generateId m.matchedText ∉ s.highlights.map Prod.fst) →
      (∀ m ∈ ms, (findRangeForMatch text m.matchedText).isSome = true) →
      ms.foldl (addMatch text) s =
        { highlights := s.highlights ++ ms.map (fun m =>
            (generateId m.matchedText,
             freshHighlight m ((findRangeForMatch text m.matchedText).getD 0))),
          pendingLinks := ms.foldl (fun p m => addPending p m.url) s.pendingLinks } := by
  intro ms
  induction ms with
  | nil =>
    intro s _ _ _
    simp
  | cons m ms ih =>
    intro s hnd hfresh hrange
    have hid : hlLookup s.highlights (generateId m.matchedText) = none :=
      hlLookup_eq_none_iff.mpr (hfresh m (List.mem_cons_self m ms))
    obtain ⟨r, hr⟩ := Option.isSome_iff_exists.mp (hrange m (List.mem_cons_self m ms))
    have haddm : addMatch text s m =
        { highlights := s.highlights ++ [(generateId m.matchedText, freshHighlight m r)],
          pendingLinks := addPending s.pendingLinks m.url } := by
      simp only [addMatch, hid, hr]
    rw [List.foldl_cons, haddm]
    rw [List.map_cons, List.nodup_cons] at hnd
    have hih := ih { highlights := s.highlights ++ [(generateId m.matchedText, freshHighlight m r)],
                     pendingLinks := addPending s.pendingLinks m.url }
      hnd.2
      (by
        intro m' hm'
        simp only [List.map_append, List.mem_append, List.map_cons]
        rintro (hins | hnew)
        · exact hfresh m' (List.mem_cons_of_mem m hm') hins
        · have : generateId m'.matchedText = generateId m.matchedText := by
            simpa using hnew
          exact hnd.1 (this ▸ List.mem_map_of_mem (fun x => generateId x.matchedText) hm'))
      (fun m' hm' => hrange m' (List.mem_cons_of_mem m hm'))
    rw [hih]
    simp only [List.map_cons, List.foldl_cons]
    rw [hr]
    simp [List.append_assoc]

theorem updateHighlights_from_empty_of_nodup (text : String)
    (hnd : ((scanMentions text).map (fun m => generateId m.matchedText)).Nodup) :
    updateHighlights text emptyStore =
      { highlights := (scanMentions text).map (fun m =>
          (generateId m.matchedText,
           freshHighlight m ((findRangeForMatch text m.matchedText).getD 0))),
        pendingLinks := (scanMentions text).foldl (fun p m => addPending p m.url) [] } := by
  have hfold := foldl_addMatch_fresh text (scanMentions text) emptyStore hnd
    (by intro m _; simp [emptyStore])
    (fun m hm => findRangeForMatch_isSome_of_mem hm)
  simp only [updateHighlights]
  rw [hfold]
  simp only [emptyStore, List.nil_append]
  have hkeep : ∀ p ∈ (scanMentions text).map (fun m =>
      (generateId m.matchedText,
       freshHighlight m ((findRangeForMatch text m.matchedText).getD 0))),
      ((scanMentions text).map (fun m => generateId m.matchedText)).contains p.1 = true := by
    intro p hp
    obtain ⟨m, hm, hpe⟩ := List.mem_map.mp hp
    subst hpe
    exact List.elem_iff.mpr (List.mem_map.mpr ⟨m, hm, rfl⟩)
  have hdead : ((scanMentions text).map (fun m =>
      (generateId m.matchedText,
       freshHighlight m ((findRangeForMatch text m.matchedText).getD 0)))).filter
        (fun p => !(((scanMentions text).map (fun m => generateId m.matchedText)).contains p.1))
      = [] := by
    rw [List.filter_eq_nil_iff]
    intro p hp
    rw [hkeep p hp]
    simp
  rw [hdead]
  have hself := List.filter_eq_self.mpr hkeep
  rw [hself]
  simp

theorem foldl_addPending_mono {u : String} :
    ∀ (ms : List Mention) (p : List String), u ∈ p →
      u ∈ ms.foldl (fun acc m => addPending acc m.url) p := by
  intro ms
  induction ms with
  | nil => intro p h; exact h
  | cons m0 ms ih =>
    intro p h
    exact ih (addPending p m0.url) (mem_addPending.mpr (Or.inl h))

theorem mem_foldl_addPending {ms : List Mention} {m : Mention} (hm : m ∈ ms) :
    ∀ p : List String, m.url ∈ ms.foldl (fun acc m => addPending acc m.url) p := by
  induction ms with
  | nil => cases hm
  | cons m0 ms ih =>
    intro p
    rcases List.mem_cons.mp hm with rfl | hm'
    · exact foldl_addPending_mono ms _ (mem_addPending.mpr (Or.inr rfl))
    · exact ih hm' _

/-- Claim C1, amended: for every surface text whose syntactically valid
link mentions have pairwise-distinct derived ids, one reconciliation
pass starting from an empty Highlight Store creates exactly one
highlight per mention, each with id derived from its matched text and
status `pending`, and adds each extracted URL to the pending set.
(Distinct matched text alone does not suffice: id derivation can
collide.) -/
theorem claim1_reconciliation_from_empty (text : String)
    (hnd : ((scanMentions text).map (fun m => generateId m.matchedText)).Nodup) :
    (updateHighlights text emptyStore).highlights.length = (scanMentions text).length ∧
    (∀ m ∈ scanMentions text, ∃ h,
        (generateId m.matchedText, h) ∈ (updateHighlights text emptyStore).highlights ∧
        h.id = generateId m.matchedText ∧ h.text = m.matchedText ∧
        h.state.status = Status.pending ∧ h.state.url = m.url) ∧
    (∀ m ∈ scanMentions text, m.url ∈ (updateHighlights text emptyStore).pendingLinks) := by
  rw [updateHighlights_from_empty_of_nodup text hnd]
  refine ⟨by simp, ?_, ?_⟩
  · intro m hm
    exact ⟨freshHighlight m ((findRangeForMatch text m.matchedText).getD 0),
      List.mem_map.mpr ⟨m, hm, rfl⟩, rfl, rfl, rfl, rfl⟩
  · intro m hm
    exact mem_foldl_addPending hm []

/-- Witness for the amended C1 at a concrete two-mention text. -/
theorem claim1_reconciliation_witness :
    ((scanMentions "@link https://x @link https://y").map
        (fun m => generateId m.matchedText)).Nodup ∧
    ((updateHighlights "@link https://x @link https://y" emptyStore).highlights.length =
        (scanMentions "@link https://x @link https://y").length ∧
      (∀ m ∈ scanMentions "@link https://x @link https://y", ∃ h,
          (generateId m.matchedText, h) ∈
            (updateHighlights "@link https://x @link https://y" emptyStore).highlights ∧
          h.id = generateId m.matchedText ∧ h.text = m.matchedText ∧
          h.state.status = Status.pending ∧ h.state.url = m.url) ∧
      (∀ m ∈ scanMentions "@link https://x @link https://y",
          m.url ∈ (updateHighlights "@link https://x @link https://y" emptyStore).pendingLinks)) :=
  ⟨by decide, claim1_reconciliation_from_empty "@link https://x @link https://y" (by decide)⟩

/-- Claim C1 as stated is false on the code: the two mentions
`@link https://a.b` and `@link https://a/b` have distinct matched text,
yet id derivation collapses `.` and `/` to the same placeholder, the ids
collide, and one reconciliation pass from the empty store creates one
highlight instead of two. -/
theorem claim1_counterexample :
    (scanMentions "@link https://a.b @link https://a/b").length = 2 ∧
    ((scanMentions "@link https://a.b @link https://a/b").map Mention.matchedText).Nodup ∧
    (updateHighlights "@link https://a.b @link https://a/b" emptyStore).highlights.length = 1 ∧
    (updateHighlights "@link https://a.b @link https://a/b" emptyStore).highlights.length ≠
      (scanMentions "@link https://a.b @link https://a/b").length := by decide

/-! ### The retry loop of the fetch orchestrator -/

theorem attemptFails_iff {o : FetchOutcome} :
    attemptFails o = true ↔ ∃ msg, classifyOutcome o = AttemptResult.failure msg := by
  rw [attemptFails]
  cases h : classifyOutcome o with
  | success d => simp
  | failure msg => simp

theorem classifyOutcome_of_fails {o : FetchOutcome} (h : attemptFails o = true) :
    classifyOutcome o = AttemptResult.failure (outcomeFailureMessage o) := by
  cases o with
  | thrown msg => rfl
  | resp r =>
    rw [attemptFails, outcomeFailureMessage] at *
    cases hd : r.data with
    | none => simp [classifyOutcome, hd]
    | some d =>
      simp only [classifyOutcome, hd] at h ⊢
      by_cases hs : r.success = true
      · rw [if_pos hs] at h
        exact absurd h (by simp)
      · rw [if_neg hs]

theorem processLink_three_failures (oracle : Nat → FetchOutcome) (id url : String)
    (s : StoreState) (cache : Cache)
    (hmiss : cacheLookup cache url = none)
    (h0 : attemptFails (oracle 0) = true)
    (h1 : attemptFails (oracle 1) = true)
    (h2 : attemptFails (oracle 2) = true) :
    processLink oracle id url s cache =
      (updateHighlightState id (errorStateOf url (outcomeFailureMessage (oracle 2))) s,
       cacheSet cache url (errorStateOf url (outcomeFailureMessage (oracle 2))),
       [Effect.fetchCall url, Effect.waited 1000, Effect.fetchCall url, Effect.waited 2000,
        Effect.fetchCall url,
        Effect.highlightUpdate id (errorStateOf url (outcomeFailureMessage (oracle 2))),
        Effect.cacheWrite url (errorStateOf url (outcomeFailureMessage (oracle 2)))]) := by
  rw [processLink, hmiss]
  obtain ⟨m0, hc0⟩ := attemptFails_iff.mp h0
  obtain ⟨m1, hc1⟩ := attemptFails_iff.mp h1
  have hc2 := classifyOutcome_of_fails h2
  simp [processLinkAttempts, hc0, hc1, hc2]

/-- Claim C2: with no cache entry for the URL, three consecutive failing
attempts make `processLink` perform exactly three fetch calls, wait 1000
time units before the 2nd and 2000 before the 3rd, and after the 3rd
failure write a state with status `error` to the highlight and persist
that same state to the durable cache under the URL. -/
theorem claim2_three_failures_error (oracle : Nat → FetchOutcome) (id url : String)
    (s : StoreState) (cache : Cache)
    (hmiss : cacheLookup cache url = none)
    (hfail : ∀ i, i < 3 → attemptFails (oracle i) = true) :
    ∃ msg,
      processLink oracle id url s cache =
        (updateHighlightState id (errorStateOf url msg) s,
         cacheSet cache url (errorStateOf url msg),
         [Effect.fetchCall url, Effect.waited 1000, Effect.fetchCall url, Effect.waited 2000,
          Effect.fetchCall url, Effect.highlightUpdate id (errorStateOf url msg),
          Effect.cacheWrite url (errorStateOf url msg)]) ∧
      (errorStateOf url msg).status = Status.error ∧
      cacheLookup (processLink oracle id url s cache).2.1 url = some (errorStateOf url msg) ∧
      (∀ h, hlLookup s.highlights id = some h →
        hlLookup (processLink oracle id url s cache).1.highlights id =
          some { h with state := errorStateOf url msg }) := by
  have hrun := processLink_three_failures oracle id url s cache hmiss
    (hfail 0 (by omega)) (hfail 1 (by omega)) (hfail 2 (by omega))
  refine ⟨outcomeFailureMessage (oracle 2), hrun, rfl, ?_, ?_⟩
  · rw [hrun]
    exact cacheLookup_cacheSet_self cache url _
  · intro h hl
    rw [hrun]
    exact hlLookup_updateHighlightState_self hl

/-- Witness for C2: a concrete run where every attempt throws. -/
theorem claim2_three_failures_witness :
    cacheLookup ([] : Cache) "https://x" = none ∧
    (∀ i, i < 3 → attemptFails ((fun _ => FetchOutcome.thrown "boom") i) = true) ∧
    (∃ msg,
      processLink (fun _ => FetchOutcome.thrown "boom") "i" "https://x" emptyStore [] =
        (updateHighlightState "i" (errorStateOf "https://x" msg) emptyStore,
         cacheSet [] "https://x" (errorStateOf "https://x" msg),
         [Effect.fetchCall "https://x", Effect.waited 1000, Effect.fetchCall "https://x",
          Effect.waited 2000, Effect.fetchCall "https://x",
          Effect.highlightUpdate "i" (errorStateOf "https://x" msg),
          Effect.cacheWrite "https://x" (errorStateOf "https://x" msg)]) ∧
      (errorStateOf "https://x" msg).status = Status.error ∧
      cacheLookup
        (processLink (fun _ => FetchOutcome.thrown "boom") "i" "https://x" emptyStore []).2.1
        "https://x" = some (errorStateOf "https://x" msg) ∧
      (∀ h, hlLookup emptyStore.highlights "i" = some h →
        hlLookup
          (processLink (fun _ => FetchOutcome.thrown "boom") "i" "https://x" emptyStore
            []).1.highlights "i" = some { h with state := errorStateOf "https://x" msg })) :=
  ⟨rfl, fun _ _ => rfl,
   claim2_three_failures_error (fun _ => FetchOutcome.thrown "boom") "i" "https://x"
     emptyStore [] rfl (fun _ _ => rfl)⟩

/-- Claim C3: a cache hit makes `processLink` copy the cached state onto
the highlight and return at once — the trace holds a single highlight
write, no fetch call, no wait. -/
theorem claim3_cache_hit (oracle : Nat → FetchOutcome) (id url : String) (s : StoreState)
    (cache : Cache) (st : LinkState) (hhit : cacheLookup cache url = some st) :
    processLink oracle id url s cache =
      (updateHighlightState id st s, cache, [Effect.highlightUpdate id st]) ∧
    (∀ h, hlLookup s.highlights id = some h →
      hlLookup (processLink oracle id url s cache).1.highlights id =
        some { h with state := st }) := by
  constructor
  · rw [processLink, hhit]
  · intro h hl
    rw [processLink, hhit]
    exact hlLookup_updateHighlightState_self hl

/-- Witness for C3: a brand-new pending highlight for a URL previously
cached as `done` resolves to `done` with zero fetch calls. -/
theorem claim3_cache_hit_witness :
    cacheLookup [("https://x",
        { url := "https://x", status := Status.done, context := some "Example body",
          metadata := none, screenshot := none, error := none })] "https://x" =
      some { url := "https://x", status := Status.done, context := some "Example body",
             metadata := none, screenshot := none, error := none } ∧
    (processLink (fun _ => FetchOutcome.thrown "net") (generateId "@link https://x") "https://x"
        (updateHighlights "@link https://x" emptyStore)
        [("https://x",
          { url := "https://x", status := Status.done, context := some "Example body",
            metadata := none, screenshot := none, error := none })] =
      (updateHighlightState (generateId "@link https://x")
        { url := "https://x", status := Status.done, context := some "Example body",
          metadata := none, screenshot := none, error := none }
        (updateHighlights "@link https://x" emptyStore),
       [("https://x",
         { url := "https://x", status := Status.done, context := some "Example body",
           metadata := none, screenshot := none, error := none })],
       [Effect.highlightUpdate (generateId "@link https://x")
         { url := "https://x", status := Status.done, context := some "Example body",
           metadata := none, screenshot := none, error := none }]) ∧
     (∀ h, hlLookup (updateHighlights "@link https://x" emptyStore).highlights
          (generateId "@link https://x") = some h →
       hlLookup (processLink (fun _ => FetchOutcome.thrown "net") (generateId "@link https://x")
          "https://x" (updateHighlights "@link https://x" emptyStore)
          [("https://x",
            { url := "https://x", status := Status.done, context := some "Example body",
              metadata := none, screenshot := none, error := none })]).1.highlights
          (generateId "@link https://x") =
        some { h with state :=
          { url := "https://x", status := Status.done, context := some "Example body",
            metadata := none, screenshot := none, error := none } })) :=
  ⟨rfl, claim3_cache_hit (fun _ => FetchOutcome.thrown "net") (generateId "@link https://x")
    "https://x" (updateHighlights "@link https://x" emptyStore) _ _ rfl⟩

/-- Claim C7 as stated is false on the code: for an explicit non-success
response of the collaborator shape, here with reported error message
`boom`, the terminal error state carries `Unknown error` — the code
reads `response.data?.metadata?.error`, never the collaborator's
top-level `error` field. -/
theorem claim7_counterexample :
    (processLink (fun _ => FetchOutcome.resp
        { success := false, data := none, errorField := some "boom" })
      "i" "https://x" emptyStore []).2.1 =
      [("https://x", errorStateOf "https://x" "Unknown error")] ∧
    (errorStateOf "https://x" "Unknown error").error = some "Unknown error" ∧
    some "Unknown error" ≠ some "boom" := by decide

/-- Claim C7, amended: the error state written after the third failure
carries `outcomeFailureMessage` of the third attempt: for a thrown fault
the fault's message; for a resolved response taken as failure the
optional-chained `data?.metadata?.error` when present and nonempty,
otherwise the literal `Unknown error` — the collaborator's top-level
`error` field is ignored. -/
theorem claim7_error_message (oracle : Nat → FetchOutcome) (id url : String)
    (s : StoreState) (cache : Cache)
    (hmiss : cacheLookup cache url = none)
    (hfail : ∀ i, i < 3 → attemptFails (oracle i) = true) :
    cacheLookup (processLink oracle id url s cache).2.1 url =
      some (errorStateOf url (outcomeFailureMessage (oracle 2))) ∧
    (errorStateOf url (outcomeFailureMessage (oracle 2))).error =
      some (outcomeFailureMessage (oracle 2)) ∧
    (∀ em, oracle 2 = FetchOutcome.thrown em → outcomeFailureMessage (oracle 2) = em) ∧
    (∀ r, oracle 2 = FetchOutcome.resp r → outcomeFailureMessage (oracle 2) = failMessage r) := by
  have hrun := processLink_three_failures oracle id url s cache hmiss
    (hfail 0 (by omega)) (hfail 1 (by omega)) (hfail 2 (by omega))
  refine ⟨?_, rfl, ?_, ?_⟩
  · rw [hrun]
    exact cacheLookup_cacheSet_self cache url _
  · intro em h
    rw [h]
    rfl
  · intro r h
    rw [h]
    rfl

/-- Witness for the amended C7: the third attempt resolves with a
non-success response carrying a collaborator-level error message. -/
theorem claim7_error_message_witness :
    cacheLookup ([] : Cache) "https://x" = none ∧
    (∀ i, i < 3 → attemptFails ((fun _ => FetchOutcome.resp
        { success := false, data := none, errorField := some "boom" }) i) = true) ∧
    (cacheLookup (processLink (fun _ => FetchOutcome.resp
          { success := false, data := none, errorField := some "boom" })
        "i" "https://x" emptyStore []).2.1 "https://x" =
      some (errorStateOf "https://x" (outcomeFailureMessage (FetchOutcome.resp
        { success := false, data := none, errorField := some "boom" }))) ∧
     (errorStateOf "https://x" (outcomeFailureMessage (FetchOutcome.resp
        { success := false, data := none, errorField := some "boom" }))).error =
      some (outcomeFailureMessage (FetchOutcome.resp
        { success := false, data := none, errorField := some "boom" })) ∧
     (∀ em, (fun _ => FetchOutcome.resp
          { success := false, data := none, errorField := some "boom" } : Nat → FetchOutcome) 2 =
            FetchOutcome.thrown em →
        outcomeFailureMessage (FetchOutcome.resp
          { success := false, data := none, errorField := some "boom" }) = em) ∧
     (∀ r, (fun _ => FetchOutcome.resp
          { success := false, data := none, errorField := some "boom" } : Nat → FetchOutcome) 2 =
            FetchOutcome.resp r →
        outcomeFailureMessage (FetchOutcome.resp
          { success := false, data := none, errorField := some "boom" }) = failMessage r)) :=
  ⟨rfl, fun _ _ => rfl,
   claim7_error_message (fun _ => FetchOutcome.resp
      { success := false, data := none, errorField := some "boom" })
     "i" "https://x" emptyStore [] rfl (fun _ _ => rfl)⟩

/-! ### Cache writes are terminal -/

theorem processLinkAttempts_cacheWrites (oracle : Nat → FetchOutcome) (id url : String) :
    ∀ (atts : List Nat) (s : StoreState) (cache : Cache) (u : String) (st : LinkState),
      Effect.cacheWrite u st ∈ (processLinkAttempts oracle id url atts s cache).2.2 →
      (st.status = Status.done ∨ st.status = Status.error) ∧ u = url := by
  intro atts
  induction atts with
  | nil =>
    intro s cache u st h
    simp [processLinkAttempts] at h
  | cons attempt rest ih =>
    intro s cache u st h
    simp only [processLinkAttempts] at h
    cases hc : classifyOutcome (oracle attempt) with
    | success d =>
      rw [hc] at h
      simp only [List.mem_cons, List.not_mem_nil, or_false] at h
      rcases h with h | h | h
      · exact absurd h (by simp)
      · exact absurd h (by simp)
      · obtain ⟨h1, h2⟩ := (Effect.cacheWrite.injEq _ _ _ _).mp h
        subst h1
        subst h2
        exact ⟨Or.inl rfl, rfl⟩
    | failure msg =>
      rw [hc] at h
      split_ifs at h with hatt
      · simp only [List.mem_cons] at h
        rcases h with h | h | h | h
        · exact absurd h (by simp)
        · exact absurd h (by simp)
        · obtain ⟨rfl, rfl⟩ : u = url ∧ st = errorStateOf url msg := by
            constructor <;> [exact (Effect.cacheWrite.injEq _ _ _ _).mp h |>.1;
              exact (Effect.cacheWrite.injEq _ _ _ _).mp h |>.2]
          exact ⟨Or.inr rfl, rfl⟩
        · exact ih _ _ u st h
      · simp only [List.mem_cons] at h
        rcases h with h | h | h
        · exact absurd h (by simp)
        · exact absurd h (by simp)
        · exact ih _ _ u st h

theorem processLink_cacheWrites (oracle : Nat → FetchOutcome) (id url : String)
    (s : StoreState) (cache : Cache) (u : String) (st : LinkState)
    (h : Effect.cacheWrite u st ∈ (processLink oracle id url s cache).2.2) :
    (st.status = Status.done ∨ st.status = Status.error) ∧ u = url := by
  rw [processLink] at h
  cases hc : cacheLookup cache url with
  | some st' =>
    rw [hc] at h
    simp at h
  | none =>
    rw [hc] at h
    exact processLinkAttempts_cacheWrites oracle id url _ s cache u st h

theorem foldl_processPendingStep_cacheWrites (oracle : String → Nat → FetchOutcome) :
    ∀ (urls : List String) (acc : StoreState × Cache × List Effect),
      (∀ u st, Effect.cacheWrite u st ∈ acc.2.2 →
        st.status = Status.done ∨ st.status = Status.error) →
      ∀ u st, Effect.cacheWrite u st ∈ (urls.foldl (processPendingStep oracle) acc).2.2 →
        st.status = Status.done ∨ st.status = Status.error := by
  intro urls
  induction urls with
  | nil =>
    intro acc hacc u st h
    exact hacc u st h
  | cons url' urls ih =>
    intro acc hacc u st h
    refine ih _ ?_ u st h
    intro u' st' h'
    simp only [processPendingStep] at h'
    split at h'
    · split_ifs at h' with hp
      · rcases List.mem_append.mp h' with h'' | h''
        · exact hacc u' st' h''
        · exact (processLink_cacheWrites _ _ _ _ _ _ _ h'').1
      · exact hacc u' st' h'
    · exact hacc u' st' h'

/-- Claim C9: every durable-cache entry ever written by the core is a
terminal state — `processLink` writes only `done`/`error` states, always
keyed by exactly the URL it was called with, and the whole
`processPendingLinks` dispatch inherits this. -/
theorem claim9_cache_writes_terminal (poracle : String → Nat → FetchOutcome)
    (loracle : Nat → FetchOutcome) (id url : String) (s : StoreState) (cache : Cache)
    (u : String) (st : LinkState) :
    (Effect.cacheWrite u st ∈ (processLink loracle id url s cache).2.2 →
      (st.status = Status.done ∨ st.status = Status.error) ∧ u = url) ∧
    (Effect.cacheWrite u st ∈ (processPendingLinks poracle s cache).2.2 →
      st.status = Status.done ∨ st.status = Status.error) := by
  constructor
  · exact processLink_cacheWrites loracle id url s cache u st
  · intro h
    rw [processPendingLinks] at h
    exact foldl_processPendingStep_cacheWrites poracle s.pendingLinks (s, cache, [])
      (by intro u' st' h'; simp at h') u st h

/-- Witness for C9: the error state written after three thrown failures
is terminal and keyed by the processed URL. -/
theorem claim9_cache_writes_witness :
    Effect.cacheWrite "https://x" (errorStateOf "https://x" "boom") ∈
      (processLink (fun _ => FetchOutcome.thrown "boom") "i" "https://x" emptyStore []).2.2 ∧
    (((errorStateOf "https://x" "boom").status = Status.done ∨
      (errorStateOf "https://x" "boom").status = Status.error) ∧ "https://x" = "https://x") :=
  ⟨by decide,
   (claim9_cache_writes_terminal (fun _ _ => FetchOutcome.thrown "boom")
     (fun _ => FetchOutcome.thrown "boom") "i" "https://x" emptyStore []
     "https://x" (errorStateOf "https://x" "boom")).1 (by decide)⟩

/-! ### The submission guard -/

/-- Claim C4: the submission guard is a two-state machine.  A send
gesture intercepted while `Processing` is ignored: the state is
unchanged and no effect (no loading indicator, no injection pass, no
dispatch) is produced.  An accepted sequence — whether it completes or
faults at any awaited step — always ends back in `Idle`: `isProcessing`
false, the bypass flag cleared, the loading indicator hidden. -/
theorem claim4_submission_guard (o : SubmitOracle) (g : GuardState) :
    handleSubmitAttempt o { g with isProcessing := true } =
      ({ g with isProcessing := true }, []) ∧
    (handleSubmitAttempt o { g with isProcessing := false }).1.isProcessing = false ∧
    (handleSubmitAttempt o { g with isProcessing := false }).1.shouldBypassInterception = false ∧
    (handleSubmitAttempt o { g with isProcessing := false }).1.loadingVisible = false := by
  obtain ⟨pr, ir, dr, dl⟩ := o
  refine ⟨by simp [handleSubmitAttempt], ?_, ?_, ?_⟩ <;>
    cases pr <;> cases ir <;> cases dr <;> cases dl <;>
      simp [handleSubmitAttempt, runSubmitBody]

/-! ### The context injector -/

/-- Claim C5: the source `injectContext` appends, for each live
highlight whose status is `done` with fetched (nonempty) content and
whose mention text `@link <url>` is still literally present in the
surface text, exactly the block `"\n\nContext for <url>:\n<content>"`,
preceded by a `"\n\n# <title>\n\n"` header exactly when the state's
metadata has a (nonempty) title distinct from its description;
highlights not in `done` status, without content, or whose mention text
is absent contribute nothing. -/
theorem claim5_inject_context (content : String) (highlights : List (String × Highlight)) :
    injectContext content highlights = specInjectBlocks content highlights := by
  rw [injectContext, specInjectBlocks]
  apply List.filterMap_congr
  intro p _
  cases hc : p.2.state.context with
  | none => simp only [hc]
  | some c =>
    simp only [hc]
    by_cases hcond : (p.2.state.status = Status.done ∧ c ≠ "" ∧
        stringIncludes content ("@link " ++ p.2.state.url) = true)
    · rw [if_pos hcond, if_pos hcond]
      refine congrArg some ?_
      rcases hm : p.2.state.metadata with _ | m
      · simp [contextTextFor, metadataHasDistinctTitle, hm]
      · rcases ht : m.title with _ | t
        · simp [contextTextFor, metadataHasDistinctTitle, hm, ht]
        · by_cases hd : (t ≠ "" ∧ m.description ≠ some t)
          · simp [contextTextFor, metadataHasDistinctTitle, stateTitle, hm, ht, hd]
          · simp [contextTextFor, metadataHasDistinctTitle, stateTitle, hm, ht, hd]
    · rw [if_neg hcond, if_neg hcond]

/-! ### Store invariants (unique ids, pending-set correspondence) -/

theorem addMatch_keys_nodup {text : String} {s : StoreState} {m : Mention}
    (h : (s.highlights.map Prod.fst).Nodup) :
    ((addMatch text s m).highlights.map Prod.fst).Nodup := by
  simp only [addMatch]
  cases hl : hlLookup s.highlights (generateId m.matchedText) with
  | some _ => exact h
  | none =>
    cases hr : findRangeForMatch text m.matchedText with
    | none => exact h
    | some r =>
      have hni : generateId m.matchedText ∉ s.highlights.map Prod.fst :=
        hlLookup_eq_none_iff.mp hl
      simp only [List.map_append, List.map_cons, List.map_nil]
      rw [List.nodup_append]
      refine ⟨h, List.nodup_singleton _, ?_⟩
      intro a ha
      simp only [List.mem_singleton]
      intro hae
      exact hni (hae ▸ ha)

theorem foldl_addMatch_keys_nodup (text : String) :
    ∀ (ms : List Mention) (s : StoreState),
      (s.highlights.map Prod.fst).Nodup →
      (((ms.foldl (addMatch text) s).highlights.map Prod.fst)).Nodup := by
  intro ms
  induction ms with
  | nil => exact fun s h => h
  | cons m ms ih => exact fun s h => ih (addMatch text s m) (addMatch_keys_nodup h)

theorem updateHighlights_keys_nodup {text : String} {s : StoreState}
    (h : (s.highlights.map Prod.fst).Nodup) :
    ((updateHighlights text s).highlights.map Prod.fst).Nodup := by
  simp only [updateHighlights]
  exact ((List.filter_sublist _).map Prod.fst).nodup
    (foldl_addMatch_keys_nodup text (scanMentions text) s h)

theorem processLinkAttempts_keys (oracle : Nat → FetchOutcome) (id url : String) :
    ∀ (atts : List Nat) (s : StoreState) (cache : Cache),
      (processLinkAttempts oracle id url atts s cache).1.highlights.map Prod.fst =
        s.highlights.map Prod.fst := by
  intro atts
  induction atts with
  | nil => intro s cache; rfl
  | cons attempt rest ih =>
    intro s cache
    simp only [processLinkAttempts]
    cases hc : classifyOutcome (oracle attempt) with
    | success d => exact updateHighlightState_keys _ _ _
    | failure msg =>
      split_ifs with hatt
      · rw [ih _ _]
        exact updateHighlightState_keys _ _ _
      · exact ih _ _

theorem processLink_keys (oracle : Nat → FetchOutcome) (id url : String) (s : StoreState)
    (cache : Cache) :
    (processLink oracle id url s cache).1.highlights.map Prod.fst =
      s.highlights.map Prod.fst := by
  rw [processLink]
  cases hc : cacheLookup cache url with
  | some st => exact updateHighlightState_keys _ _ _
  | none => exact processLinkAttempts_keys oracle id url _ s cache

theorem foldl_processPendingStep_keys (oracle : String → Nat → FetchOutcome) :
    ∀ (urls : List String) (acc : StoreState × Cache × List Effect),
      (urls.foldl (processPendingStep oracle) acc).1.highlights.map Prod.fst =
        acc.1.highlights.map Prod.fst := by
  intro urls
  induction urls with
  | nil => intro acc; rfl
  | cons url' urls ih =>
    intro acc
    rw [List.foldl_cons, ih]
    simp only [processPendingStep]
    split
    · split_ifs with hp
      · rw [processLink_keys]
        exact updateHighlightState_keys _ _ _
      · rfl
    · rfl

theorem processPendingLinks_keys (oracle : String → Nat → FetchOutcome) (s : StoreState)
    (cache : Cache) :
    (processPendingLinks oracle s cache).1.highlights.map Prod.fst =
      s.highlights.map Prod.fst := by
  rw [processPendingLinks]
  exact foldl_processPendingStep_keys oracle s.pendingLinks (s, cache, [])

theorem foldl_addMatch_keys_subset (text : String) :
    ∀ (ms : List Mention) (s : StoreState) (k : String),
      k ∈ (ms.foldl (addMatch text) s).highlights.map Prod.fst →
      k ∈ s.highlights.map Prod.fst ∨ ∃ m ∈ ms, k = generateId m.matchedText := by
  intro ms
  induction ms with
  | nil =>
    intro s k h
    exact Or.inl h
  | cons m ms ih =>
    intro s k h
    rw [List.foldl_cons] at h
    rcases ih (addMatch text s m) k h with h1 | ⟨m', hm', rfl⟩
    · simp only [addMatch] at h1
      cases hl : hlLookup s.highlights (generateId m.matchedText) with
      | some _ =>
        rw [hl] at h1
        exact Or.inl h1
      | none =>
        rw [hl] at h1
        cases hr : findRangeForMatch text m.matchedText with
        | none =>
          rw [hr] at h1
          exact Or.inl h1
        | some r =>
          rw [hr] at h1
          simp only [List.map_append, List.mem_append, List.map_cons, List.map_nil,
            List.mem_singleton] at h1
          rcases h1 with h1 | h1
          · exact Or.inl h1
          · exact Or.inr ⟨m, List.mem_cons_self m ms, h1⟩
    · exact Or.inr ⟨m', List.mem_cons_of_mem m hm', rfl⟩

theorem addMatch_invariant {text : String} {s : StoreState} {m : Mention}
    (hp : ∀ p ∈ s.highlights, p.2.state.status = Status.pending)
    (hc : ∀ u, u ∈ s.pendingLinks ↔ ∃ p ∈ s.highlights, p.2.state.url = u) :
    (∀ p ∈ (addMatch text s m).highlights, p.2.state.status = Status.pending) ∧
    (∀ u, u ∈ (addMatch text s m).pendingLinks ↔
      ∃ p ∈ (addMatch text s m).highlights, p.2.state.url = u) := by
  simp only [addMatch]
  cases hl : hlLookup s.highlights (generateId m.matchedText) with
  | some _ => exact ⟨hp, hc⟩
  | none =>
    cases hr : findRangeForMatch text m.matchedText with
    | none => exact ⟨hp, hc⟩
    | some r =>
      constructor
      · intro p hmem
        rcases List.mem_append.mp hmem with h1 | h1
        · exact hp p h1
        · obtain rfl := List.mem_singleton.mp h1
          rfl
      · intro u
        rw [mem_addPending]
        constructor
        · rintro (h1 | rfl)
          · obtain ⟨p, hp1, hp2⟩ := (hc u).mp h1
            exact ⟨p, List.mem_append_left _ hp1, hp2⟩
          · exact ⟨(generateId m.matchedText, freshHighlight m r),
              List.mem_append_right _ (List.mem_singleton.mpr rfl), rfl⟩
        · rintro ⟨p, hp1, hp2⟩
          rcases List.mem_append.mp hp1 with h1 | h1
          · exact Or.inl ((hc u).mpr ⟨p, h1, hp2⟩)
          · obtain rfl := List.mem_singleton.mp h1
            exact Or.inr hp2.symm

theorem foldl_addMatch_invariant (text : String) :
    ∀ (ms : List Mention) (s : StoreState),
      (∀ p ∈ s.highlights, p.2.state.status = Status.pending) →
      (∀ u, u ∈ s.pendingLinks ↔ ∃ p ∈ s.highlights, p.2.state.url = u) →
      (∀ p ∈ (ms.foldl (addMatch text) s).highlights, p.2.state.status = Status.pending) ∧
      (∀ u, u ∈ (ms.foldl (addMatch text) s).pendingLinks ↔
        ∃ p ∈ (ms.foldl (addMatch text) s).highlights, p.2.state.url = u) := by
  intro ms
  induction ms with
  | nil => exact fun s hp hc => ⟨hp, hc⟩
  | cons m ms ih =>
    intro s hp hc
    rw [List.foldl_cons]
    obtain ⟨hp', hc'⟩ := @addMatch_invariant text s m hp hc
    exact ih (addMatch text s m) hp' hc'

theorem updateHighlights_from_empty_eq_fold (text : String) :
    updateHighlights text emptyStore =
      (scanMentions text).foldl (addMatch text) emptyStore := by
  simp only [updateHighlights]
  have hsub : ∀ p ∈ ((scanMentions text).foldl (addMatch text) emptyStore).highlights,
      ((scanMentions text).map (fun m => generateId m.matchedText)).contains p.1 = true := by
    intro p hp
    rcases foldl_addMatch_keys_subset text (scanMentions text) emptyStore p.1
        (List.mem_map.mpr ⟨p, hp, rfl⟩) with h | ⟨m, hm, he⟩
    · simp [emptyStore] at h
    · rw [he]
      exact List.elem_iff.mpr (List.mem_map.mpr ⟨m, hm, rfl⟩)
  have hself := List.filter_eq_self.mpr hsub
  have hdead : (((scanMentions text).foldl (addMatch text) emptyStore).highlights).filter
      (fun p => !(((scanMentions text).map (fun m => generateId m.matchedText)).contains p.1))
      = [] := by
    rw [List.filter_eq_nil_iff]
    intro p hp
    rw [hsub p hp]
    simp
  rw [hdead, hself]
  simp

/-- Claim C6, amended: at most one Highlight Store entry per distinct
mention id holds at every point (both reconciliation and
`processPendingLinks` preserve distinctness of the key list — the latter
leaves the key list unchanged), and a reconciliation pass from an empty
store establishes the pending-set correspondence: every created
highlight is `pending` and the pending set holds exactly the URLs of the
live highlights.  Reconciliation from a non-empty store does NOT
preserve the correspondence when two live highlights with different
mention text share one URL: removal drops the shared URL from the
pending set unconditionally. -/
theorem claim6_store_invariants (text : String) (oracle : String → Nat → FetchOutcome)
    (s : StoreState) (cache : Cache)
    (hnd : (s.highlights.map Prod.fst).Nodup) :
    ((updateHighlights text s).highlights.map Prod.fst).Nodup ∧
    ((processPendingLinks oracle s cache).1.highlights.map Prod.fst).Nodup ∧
    (∀ p ∈ (updateHighlights text emptyStore).highlights,
      p.2.state.status = Status.pending) ∧
    (∀ u, u ∈ (updateHighlights text emptyStore).pendingLinks ↔
      ∃ p ∈ (updateHighlights text emptyStore).highlights, p.2.state.url = u) := by
  have hinv := foldl_addMatch_invariant text (scanMentions text) emptyStore
    (by intro p hp; simp [emptyStore] at hp)
    (by intro u; simp [emptyStore])
  refine ⟨updateHighlights_keys_nodup hnd, ?_, ?_, ?_⟩
  · rw [processPendingLinks_keys]
    exact hnd
  · rw [updateHighlights_from_empty_eq_fold]
    exact hinv.1
  · rw [updateHighlights_from_empty_eq_fold]
    exact hinv.2

/-- Witness for the amended C6 at a concrete store and text. -/
theorem claim6_store_invariants_witness :
    ((emptyStore.highlights.map Prod.fst).Nodup) ∧
    (((updateHighlights "@link https://x" emptyStore).highlights.map Prod.fst).Nodup ∧
     ((processPendingLinks (fun _ _ => FetchOutcome.thrown "boom") emptyStore
        []).1.highlights.map Prod.fst).Nodup ∧
     (∀ p ∈ (updateHighlights "@link https://x" emptyStore).highlights,
        p.2.state.status = Status.pending) ∧
     (∀ u, u ∈ (updateHighlights "@link https://x" emptyStore).pendingLinks ↔
        ∃ p ∈ (updateHighlights "@link https://x" emptyStore).highlights,
          p.2.state.url = u)) :=
  ⟨by decide,
   claim6_store_invariants "@link https://x" (fun _ _ => FetchOutcome.thrown "boom")
     emptyStore [] (by decide)⟩

/-- Claim C6 fails as stated on the shared-URL case: two live highlights
with different mention text (single vs double space) share one URL; the
pending set holds that URL once; removing one mention's text deletes its
highlight and unconditionally drops the URL from the pending set, so the
surviving highlight is `pending` while the pending set is empty. -/
theorem claim6_counterexample :
    (updateHighlights "@link https://x @link  https://x" emptyStore).highlights.length = 2 ∧
    "https://x" ∈ (updateHighlights "@link https://x @link  https://x" emptyStore).pendingLinks ∧
    (∃ p ∈ (updateHighlights "@link https://x"
        (updateHighlights "@link https://x @link  https://x" emptyStore)).highlights,
      p.2.state.status = Status.pending ∧ p.2.state.url = "https://x") ∧
    (updateHighlights "@link https://x"
        (updateHighlights "@link https://x @link  https://x" emptyStore)).pendingLinks = [] := by
  decide

/-! ### Removal and re-creation of a mention -/

theorem foldl_addMatch_all_present (text : String) :
    ∀ (ms : List Mention) (s : StoreState),
      (∀ m ∈ ms, hlLookup s.highlights (generateId m.matchedText) ≠ none) →
      ms.foldl (addMatch text) s = s := by
  intro ms
  induction ms with
  | nil => intro s _; rfl
  | cons m ms ih =>
    intro s hpres
    rw [List.foldl_cons]
    have hstep : addMatch text s m = s := by
      simp only [addMatch]
      cases hl : hlLookup s.highlights (generateId m.matchedText) with
      | some _ => rfl
      | none => exact absurd hl (hpres m (List.mem_cons_self m ms))
    rw [hstep]
    exact ih s (fun m' hm' => hpres m' (List.mem_cons_of_mem m hm'))

theorem addMatch_highlights_mono {text : String} {s : StoreState} {m : Mention}
    {p : String × Highlight} (h : p ∈ s.highlights) : p ∈ (addMatch text s m).highlights := by
  simp only [addMatch]
  cases hl : hlLookup s.highlights (generateId m.matchedText) with
  | some _ => exact h
  | none =>
    cases hr : findRangeForMatch text m.matchedText with
    | none => exact h
    | some r => exact List.mem_append_left _ h

theorem foldl_addMatch_highlights_mono {text : String} {p : String × Highlight} :
    ∀ (ms : List Mention) (s : StoreState), p ∈ s.highlights →
      p ∈ (ms.foldl (addMatch text) s).highlights := by
  intro ms
  induction ms with
  | nil => exact fun s h => h
  | cons m ms ih => exact fun s h => ih (addMatch text s m) (addMatch_highlights_mono h)

theorem foldl_addMatch_creates (text : String) :
    ∀ (ms : List Mention) (s : StoreState) (i : String),
      hlLookup s.highlights i = none →
      (∀ m ∈ ms, (findRangeForMatch text m.matchedText).isSome = true) →
      (∃ m ∈ ms, generateId m.matchedText = i) →
      ∃ m2 h, m2 ∈ ms ∧ generateId m2.matchedText = i ∧
        (i, h) ∈ (ms.foldl (addMatch text) s).highlights ∧
        h.id = i ∧ h.text = m2.matchedText ∧ h.state.status = Status.pending ∧
        h.state.url = m2.url := by
  intro ms
  induction ms with
  | nil =>
    intro s i _ _ hex
    obtain ⟨m, hm, _⟩ := hex
    cases hm
  | cons m ms ih =>
    intro s i hnone hrange hex
    rw [List.foldl_cons]
    by_cases hgid : generateId m.matchedText = i
    · obtain ⟨r, hr⟩ := Option.isSome_iff_exists.mp (hrange m (List.mem_cons_self m ms))
      have hnone2 : hlLookup s.highlights (generateId m.matchedText) = none := by
        rw [hgid]
        exact hnone
      have hstep : addMatch text s m =
          { highlights := s.highlights ++ [(generateId m.matchedText, freshHighlight m r)],
            pendingLinks := addPending s.pendingLinks m.url } := by
        simp only [addMatch, hnone2, hr]
      refine ⟨m, freshHighlight m r, List.mem_cons_self m ms, hgid, ?_, hgid, rfl, rfl, rfl⟩
      apply foldl_addMatch_highlights_mono ms
      rw [hstep]
      apply List.mem_append_right
      rw [hgid]
      exact List.mem_singleton.mpr rfl
    · have hex' : ∃ m' ∈ ms, generateId m'.matchedText = i := by
        obtain ⟨m', hm', he⟩ := hex
        rcases List.mem_cons.mp hm' with rfl | hm''
        · exact absurd he hgid
        · exact ⟨m', hm'', he⟩
      have hnone' : hlLookup (addMatch text s m).highlights i = none := by
        simp only [addMatch]
        cases hl : hlLookup s.highlights (generateId m.matchedText) with
        | some _ => exact hnone
        | none =>
          cases hr : findRangeForMatch text m.matchedText with
          | none => exact hnone
          | some r =>
            rw [hlLookup_append_of_none hnone, hlLookup, if_neg hgid]
            rfl
      obtain ⟨m2, h, hm2, he2, hmem, hid, htext, hst, hurl⟩ :=
        ih (addMatch text s m) i hnone' (fun m' hm' => hrange m' (List.mem_cons_of_mem m hm'))
          hex'
      exact ⟨m2, h, List.mem_cons_of_mem m hm2, he2, hmem, hid, htext, hst, hurl⟩

/-- Claim C8: when the surface text loses exactly the mention with id
`i` (its id no longer among the scanned ids, every other stored id still
scanned, no new mentions), the next reconciliation removes exactly that
one highlight, leaving every other entry unchanged; and re-typing a
mention with identical text later (its derived id equals `i` again,
since id derivation is a pure function of the matched text) creates a
fresh highlight under the same id `i` with status `pending`. -/
theorem claim8_remove_retype (t2 : String) (s : StoreState) (i : String)
    (hpresent : ∀ m ∈ scanMentions t2,
      hlLookup s.highlights (generateId m.matchedText) ≠ none)
    (hgone : i ∉ (scanMentions t2).map (fun m => generateId m.matchedText))
    (hothers : ∀ p ∈ s.highlights, p.1 ≠ i →
      p.1 ∈ (scanMentions t2).map (fun m => generateId m.matchedText)) :
    (updateHighlights t2 s).highlights = s.highlights.filter (fun p => p.1 != i) ∧
    (∀ t3 m, m ∈ scanMentions t3 → generateId m.matchedText = i →
      ∃ m2 h, m2 ∈ scanMentions t3 ∧ generateId m2.matchedText = i ∧
        (i, h) ∈ (updateHighlights t3 (updateHighlights t2 s)).highlights ∧
        h.id = i ∧ h.text = m2.matchedText ∧ h.state.status = Status.pending ∧
        h.state.url = m2.url) := by
  have hfold := foldl_addMatch_all_present t2 (scanMentions t2) s hpresent
  have hfilter : (updateHighlights t2 s).highlights =
      s.highlights.filter (fun p => p.1 != i) := by
    simp only [updateHighlights, hfold]
    apply List.filter_congr
    intro p hp
    by_cases hpe : p.1 = i
    · have h1 : ((scanMentions t2).map (fun m => generateId m.matchedText)).contains i
          = false := by
        cases hcc : ((scanMentions t2).map (fun m => generateId m.matchedText)).contains i with
        | false => rfl
        | true => exact absurd (List.elem_iff.mp hcc) hgone
      rw [hpe, h1, bne_self_eq_false]
    · have h1 : ((scanMentions t2).map (fun m => generateId m.matchedText)).contains p.1
          = true := List.elem_iff.mpr (hothers p hp hpe)
      rw [h1]
      exact (bne_iff_ne.mpr hpe).symm
  refine ⟨hfilter, ?_⟩
  intro t3 m hm hgid
  have hnone : hlLookup (updateHighlights t2 s).highlights i = none := by
    apply hlLookup_eq_none_iff.mpr
    intro hmem
    obtain ⟨p, hpmem, hpe⟩ := List.mem_map.mp hmem
    rw [hfilter] at hpmem
    have hpred := (List.mem_filter.mp hpmem).2
    rw [hpe] at hpred
    rw [bne_self_eq_false] at hpred
    exact absurd hpred (by simp)
  obtain ⟨m2, h, hm2, he2, hmem, hid, htext, hst, hurl⟩ :=
    foldl_addMatch_creates t3 (scanMentions t3) (updateHighlights t2 s) i hnone
      (fun m' hm' => findRangeForMatch_isSome_of_mem hm') ⟨m, hm, hgid⟩
  refine ⟨m2, h, hm2, he2, ?_, hid, htext, hst, hurl⟩
  simp only [updateHighlights]
  apply List.mem_filter.mpr
  refine ⟨hmem, ?_⟩
  exact List.elem_iff.mpr (List.mem_map.mpr ⟨m2, hm2, he2⟩)

/-- Witness for C8: store built from a two-mention text; the `x` mention
is removed and later re-typed. -/
theorem claim8_remove_retype_witness :
    (∀ m ∈ scanMentions "@link https://y",
      hlLookup (updateHighlights "@link https://x @link https://y" emptyStore).highlights
        (generateId m.matchedText) ≠ none) ∧
    (generateId "@link https://x" ∉
      (scanMentions "@link https://y").map (fun m => generateId m.matchedText)) ∧
    (∀ p ∈ (updateHighlights "@link https://x @link https://y" emptyStore).highlights,
      p.1 ≠ generateId "@link https://x" →
      p.1 ∈ (scanMentions "@link https://y").map (fun m => generateId m.matchedText)) ∧
    ((updateHighlights "@link https://y"
        (updateHighlights "@link https://x @link https://y" emptyStore)).highlights =
      (updateHighlights "@link https://x @link https://y" emptyStore).highlights.filter
        (fun p => p.1 != generateId "@link https://x") ∧
     (∀ t3 m, m ∈ scanMentions t3 → generateId m.matchedText = generateId "@link https://x" →
       ∃ m2 h, m2 ∈ scanMentions t3 ∧
         generateId m2.matchedText = generateId "@link https://x" ∧
         (generateId "@link https://x", h) ∈ (updateHighlights t3 (updateHighlights
            "@link https://y" (updateHighlights "@link https://x @link https://y"
              emptyStore))).highlights ∧
         h.id = generateId "@link https://x" ∧ h.text = m2.matchedText ∧
         h.state.status = Status.pending ∧ h.state.url = m2.url)) :=
  ⟨by decide, by decide, by decide,
   claim8_remove_retype "@link https://y"
     (updateHighlights "@link https://x @link https://y" emptyStore)
     (generateId "@link https://x") (by decide) (by decide) (by decide)⟩

/-! ### Mentions whose derived id differs from the canonical lookup id -/

/-- Claim C10 as stated is false on the code for its tab example: the
mention `@link<TAB>https://x` has matched text different from
`@link https://x`, yet id derivation maps the tab and the space to the
same placeholder, `processPendingLinks` finds the highlight, and the
fetch collaborator IS called for it. -/
theorem claim10_counterexample :
    (∃ p ∈ (updateHighlights "@link\thttps://x" emptyStore).highlights,
        p.2.text ≠ "@link https://x" ∧ p.2.state.status = Status.pending) ∧
    generateId "@link\thttps://x" = generateId "@link https://x" ∧
    Effect.fetchCall "https://x" ∈
      (processPendingLinks (fun _ _ => FetchOutcome.resp
          { success := true,
            data := some { markdown := "Example body", metadata := none, screenshot := none },
            errorField := none })
        (updateHighlights "@link\thttps://x" emptyStore) []).2.2 := by
  decide

/-- Claim C10, amended: for a syntactically valid mention whose derived
id differs from the id of `@link ` + URL rebuilt with a single space
(e.g. two or more whitespace characters between `@link` and the URL — a
single tab does not qualify, since every non-word character maps to the
same placeholder), reconciliation creates a `pending` highlight and adds
its URL to the pending set, but `processPendingLinks` fails to find that
highlight under the rebuilt id: it never transitions it to `fetching`,
never calls the fetch collaborator, produces no effect at all, and still
clears the URL from the pending set, leaving the highlight `pending`. -/
theorem claim10_mismatched_id (t : String) (m : Mention) (oracle : String → Nat → FetchOutcome)
    (cache : Cache)
    (hscan : scanMentions t = [m])
    (hid : generateId m.matchedText ≠ generateId ("@link " ++ m.url)) :
    ∃ r,
      updateHighlights t emptyStore =
        { highlights := [(generateId m.matchedText, freshHighlight m r)],
          pendingLinks := [m.url] } ∧
      (freshHighlight m r).state.status = Status.pending ∧
      m.url ∈ (updateHighlights t emptyStore).pendingLinks ∧
      processPendingLinks oracle (updateHighlights t emptyStore) cache =
        ({ highlights := [(generateId m.matchedText, freshHighlight m r)],
           pendingLinks := [] }, cache, []) := by
  have hnd : ((scanMentions t).map (fun m => generateId m.matchedText)).Nodup := by
    rw [hscan]
    simp
  have hs1 := updateHighlights_from_empty_of_nodup t hnd
  rw [hscan] at hs1
  simp only [List.map_cons, List.map_nil, List.foldl_cons, List.foldl_nil] at hs1
  have haddp : addPending ([] : List String) m.url = [m.url] := rfl
  rw [haddp] at hs1
  refine ⟨(findRangeForMatch t m.matchedText).getD 0, hs1, rfl, ?_, ?_⟩
  · rw [hs1]
    exact List.mem_singleton.mpr rfl
  · rw [hs1]
    simp only [processPendingLinks, List.foldl_cons, List.foldl_nil, processPendingStep,
      hlLookup, if_neg hid]

/-- Witness for the amended C10: a double-space mention. -/
theorem claim10_mismatched_id_witness :
    scanMentions "@link  https://x" =
      [{ matchedText := "@link  https://x", url := "https://x" }] ∧
    generateId "@link  https://x" ≠ generateId ("@link " ++ "https://x") ∧
    (∃ r,
      updateHighlights "@link  https://x" emptyStore =
        { highlights := [(generateId "@link  https://x",
            freshHighlight { matchedText := "@link  https://x", url := "https://x" } r)],
          pendingLinks := ["https://x"] } ∧
      (freshHighlight { matchedText := "@link  https://x", url := "https://x" }
        r).state.status = Status.pending ∧
      "https://x" ∈ (updateHighlights "@link  https://x" emptyStore).pendingLinks ∧
      processPendingLinks (fun _ _ => FetchOutcome.thrown "boom")
          (updateHighlights "@link  https://x" emptyStore) [] =
        ({ highlights := [(generateId "@link  https://x",
             freshHighlight { matchedText := "@link  https://x", url := "https://x" } r)],
           pendingLinks := [] }, [], [])) :=
  ⟨by decide, by decide,
   claim10_mismatched_id "@link  https://x"
     { matchedText := "@link  https://x", url := "https://x" }
     (fun _ _ => FetchOutcome.thrown "boom") [] (by decide) (by decide)⟩
